import Mathlib

/-!
Verification of the Postile tile-query compilation and dynamic layer catalog
(repository Oslandia/postile, files postile/postile.py and postile/sql.py).

Strings are embedded as `List Char`.  Python floats are embedded as exact
rationals (`ℚ`), reading the source's numeric literals at decimal face value.
Python exceptions are embedded as `Except PyError`.  The regular expression
`LAYERQUERY = \s*\((?P<query>.*)\)\s+as\s+\w+\s*` (compiled with IGNORECASE
and DOTALL and used through `re.match`) is embedded by a direct executable
model of its backtracking semantics on this concrete pattern: leading
whitespace is stripped, an opening parenthesis is required, and the greedy
`.*` group extends to the last closing parenthesis that is followed by
whitespace, `as` (case-insensitive), whitespace and a word character.
`\s` and `\w` are modelled at their ASCII meaning.
-/

namespace Postile

/-- The space character, code 32. -/
def chSpace : Char := Char.ofNat 32

/-- The opening parenthesis character, code 40. -/
def chLParen : Char := Char.ofNat 40

/-- The closing parenthesis character, code 41. -/
def chRParen : Char := Char.ofNat 41

/-- The opening brace character, code 123. -/
def chLBrace : Char := Char.ofNat 123

/-- The closing brace character, code 125. -/
def chRBrace : Char := Char.ofNat 125

/-- The single-quote character, code 39. -/
def chQuote : Char := Char.ofNat 39

/-- Python `\s` on ASCII text: space, tab, newline, carriage return,
vertical tab, form feed. -/
def pyIsSpace (c : Char) : Bool :=
  c.toNat = 32 ∨ c.toNat = 9 ∨ c.toNat = 10 ∨ c.toNat = 13 ∨ c.toNat = 11 ∨ c.toNat = 12

/-- Python `\w` on ASCII text: letters, digits and underscore. -/
def isWordChar (c : Char) : Bool :=
  (48 ≤ c.toNat ∧ c.toNat ≤ 57) ∨ (65 ≤ c.toNat ∧ c.toNat ≤ 90) ∨
    (97 ≤ c.toNat ∧ c.toNat ≤ 122) ∨ c.toNat = 95

/-- State of the `LAYERQUERY` tail matcher after `\s+as\s+`: at least one
further word character is required. -/
def afterWs2 : List Char → Bool
  | [] => false
  | c :: rest => if pyIsSpace c then afterWs2 rest else isWordChar c

/-- State of the `LAYERQUERY` tail matcher right after `as`: at least one
whitespace character must follow. -/
def afterS : List Char → Bool
  | [] => false
  | c :: rest => if pyIsSpace c then afterWs2 rest else false

/-- State of the `LAYERQUERY` tail matcher after `a`: expects `s` or `S`. -/
def afterA : List Char → Bool
  | [] => false
  | c :: rest => if c = 's' ∨ c = 'S' then afterS rest else false

/-- State of the `LAYERQUERY` tail matcher inside the first `\s+` run:
keeps skipping whitespace, then expects `a` or `A`. -/
def afterWs1 : List Char → Bool
  | [] => false
  | c :: rest =>
    if pyIsSpace c then afterWs1 rest
    else if c = 'a' ∨ c = 'A' then afterA rest else false

/-- Whether a suffix of the subject matches `\s+as\s+\w+` (the part of
`LAYERQUERY` after the group's closing parenthesis; the trailing `\s*`
always matches and the match is not anchored at the end). -/
def tailAsAlias : List Char → Bool
  | [] => false
  | c :: rest => if pyIsSpace c then afterWs1 rest else false

/-- The greedy `(?P<query>.*)\)` step of `LAYERQUERY`: the group extends to
the last closing parenthesis whose suffix satisfies `tailAsAlias`.  The
recursion prefers a split found further right, which is exactly the
backtracking order of the greedy `.*`. -/
def greedySplit : List Char → Option (List Char)
  | [] => none
  | c :: rest =>
    match greedySplit rest with
    | some q => some (c :: q)
    | none => if c = chRParen ∧ tailAsAlias rest then some [] else none

/-- Model of `LAYERQUERY.match(s)` returning the `query` group: strip the
leading `\s*`, require `\(`, then run the greedy group search. -/
def layerqueryMatch (s : List Char) : Option (List Char) :=
  match s.dropWhile (fun c => pyIsSpace c) with
  | [] => none
  | c :: body => if c = chLParen then greedySplit body else none

/-- Model of Python `str.replace` for a nonempty pattern `p`: scan left to
right, replacing each leftmost non-overlapping occurrence of `p` by `b`.
The first argument is recursion fuel; each step consumes at least one
subject character, so any fuel at least the subject length gives the scan
semantics (the wrapper passes exactly the length). -/
def pyReplaceAux (p b : List Char) : ℕ → List Char → List Char
  | _, [] => []
  | 0, _ :: _ => []
  | fuel + 1, c :: rest =>
    if p.isPrefixOf (c :: rest) then
      b ++ pyReplaceAux p b fuel (List.drop (p.length - 1) rest)
    else
      c :: pyReplaceAux p b fuel rest

/-- Model of Python `str.replace`.  For the empty pattern Python inserts the
replacement before every character and at the end. -/
def pyReplace (s p b : List Char) : List Char :=
  if p = [] then b ++ s.foldr (fun c acc => c :: (b ++ acc)) []
  else pyReplaceAux p b s.length s

/-- Model of Python `str.split(sep)` for a nonempty separator, with an
accumulator for the piece being built and fuel as in `pyReplaceAux`: the
pieces between the leftmost non-overlapping occurrences of `p`. -/
def pySplitAux (p : List Char) : ℕ → List Char → List Char → List (List Char)
  | _, acc, [] => [acc]
  | 0, acc, _ :: _ => [acc]
  | fuel + 1, acc, c :: rest =>
    if p.isPrefixOf (c :: rest) then
      acc :: pySplitAux p fuel [] (List.drop (p.length - 1) rest)
    else
      pySplitAux p fuel (acc ++ [c]) rest

/-- Model of Python `str.split(sep)` for a nonempty separator. -/
def pySplit (p s : List Char) : List (List Char) := pySplitAux p s.length [] s

/-- The Python exceptions this embedding distinguishes.  `typeError` models
`TypeError` (string subscripted with a string key; subtraction of `None`
from a float).  `attributeError` models `AttributeError` (calling `.group`
on the `None` returned by a failed `re.match`) — it is the concrete
exception realizing the spec's compile-time `DescriptorError`. -/
inductive PyError where
  | typeError : PyError
  | attributeError : PyError
deriving DecidableEq, Repr

/-- One tm2 layer descriptor: `{id, Datasource: {geometry_field, table}}`,
flattened.  `table` carries the wrapped subquery text. -/
structure Layer where
  id : List Char
  geometry_field : List Char
  table : List Char
deriving DecidableEq, Repr

/-- The argument of `prepared_query`: either a file name (a Python `str`)
or an already-built layer-list object, as passed from the auto mode. -/
inductive TM2Input where
  | file : List Char → TM2Input
  | layersObj : List Layer → TM2Input
deriving DecidableEq, Repr

/-- The replacement text substituted for every occurrence of the declared
geometry field: clip against the bbox placeholder and re-encode, aliased
as the computed column `mvtgeom`. -/
def clipExpr (gf : List Char) : List Char :=
  "st_asmvtgeom(st_intersection(".data ++ gf ++ ", {bbox}), {bbox}) as mvtgeom".data

/-- The five inline-token substitutions of `prepared_query`, in source
order: `!bbox!`, `!scale_denominator!`, `!pixel_width!`, `!pixel_height!`,
`!min_length!` become the corresponding named placeholders. -/
def tokenSubst (q : List Char) : List Char :=
  pyReplace
    (pyReplace
      (pyReplace
        (pyReplace (pyReplace q "!bbox!".data "{bbox}".data)
          "!scale_denominator!".data "{scale_denominator}".data)
        "!pixel_width!".data "{pixel_width}".data)
      "!pixel_height!".data "{pixel_height}".data)
    "!min_length!".data "{min_length}".data

/-- The outer per-layer select of `prepared_query`: encode the rows as the
tile layer named `lid` and filter out rows whose clipped geometry is null.
The string is the Python triple-quoted literal after its `.format` call,
whitespace included. -/
def wrapLayer (lid q gf : List Char) : List Char :=
  "\n            select st_asmvt(tile, ".data ++ [chQuote] ++ lid ++ [chQuote] ++
    ", 4096, ".data ++ [chQuote] ++ "mvtgeom".data ++ [chQuote] ++
    ")\n            from (".data ++ q ++
    " where st_asmvtgeom(st_intersection(".data ++ gf ++
    ", {bbox}), {bbox}) is not null) as tile\n        ".data

/-- Per-layer body of the `prepared_query` loop: extract the inner select
with `LAYERQUERY`, rewrite the geometry field, substitute the inline
tokens, and wrap.  A failed match raises (`None.group(...)`). -/
def compileLayer (l : Layer) : Except PyError (List Char) :=
  match layerqueryMatch l.table with
  | none => Except.error PyError.attributeError
  | some q =>
    Except.ok
      (wrapLayer l.id
        (tokenSubst (pyReplace q l.geometry_field (clipExpr l.geometry_field)))
        l.geometry_field)

/-- The `prepared_query` loop over the layer list, collecting the per-layer
queries in order and stopping at the first raised exception. -/
def compileLayers : List Layer → Except PyError (List (List Char))
  | [] => Except.ok []
  | l :: ls =>
    match compileLayer l with
    | Except.error e => Except.error e
    | Except.ok q =>
      match compileLayers ls with
      | Except.error e => Except.error e
      | Except.ok qs => Except.ok (q :: qs)

/-- `prepared_query`.  The source guard `type(filename) == 'str'` compares
the class object `str` with the string literal `'str'`, which is `False`
for every argument, so a file-name argument is itself bound to `layers`
and the subscript `layers["Layer"]` on a `str` raises `TypeError`; the
file-reading branch is dead code.  On a layer-list object the per-layer
queries are joined with `" union all "`. -/
def prepared_query : TM2Input → Except PyError (List Char)
  | TM2Input.file _ => Except.error PyError.typeError
  | TM2Input.layersObj layers =>
    match compileLayers layers with
    | Except.error e => Except.error e
    | Except.ok qs => Except.ok (List.intercalate " union all ".data qs)

/-- A rectangular extent, field order as in `mercantile.Bbox`. -/
structure Bbox where
  left : ℚ
  bottom : ℚ
  right : ℚ
  top : ℚ
deriving DecidableEq, Repr

/-- The hard-coded custom extent `map_bbox` of the source, its float
literals read at decimal face value. -/
def map_bbox : Bbox :=
  ⟨16432045199999844 / 10 ^ 10, 817156431999849 / 10 ^ 8,
    16611115199999844 / 10 ^ 10, 818947131999849 / 10 ^ 8⟩

/-- Half the width of the web-mercator world extent (the constant visible
in the source's commented-out global `map_bbox`). -/
def WEB_MERCATOR_HALF : ℚ := 20037508342789244 / 10 ^ 9

/-- Modelled from the spec: `mercantile.xy_bounds` (external library) —
"the standard power-of-two subdivision of the fixed world extent"
(spec section 4.1), taken over the square web-mercator world extent. -/
def xy_bounds (x y z : ℕ) : Bbox :=
  let w : ℚ := 2 * WEB_MERCATOR_HALF / 2 ^ z
  ⟨-WEB_MERCATOR_HALF + x * w, WEB_MERCATOR_HALF - (y + 1) * w,
    -WEB_MERCATOR_HALF + (x + 1) * w, WEB_MERCATOR_HALF - y * w⟩

/-- `sql_bbox(x, y, z, output_srid)`.  The source returns an SQL string
carrying exactly the computed bounds (`st_makebox2d`/`st_setsrid`) plus a
minimum-feature-length hint; the embedding returns the bounds, the srid
tag and the hint.  With a null srid the bounds come from
`mercantile.xy_bounds` and the hint is `0`; with a non-null srid the
custom `map_bbox` is subdivided into `2^z` cells along both axes and the
hint is a fiftieth of the cell width. -/
def sql_bbox (x y z : ℕ) (output_srid : Option (List Char)) :
    Bbox × Option (List Char) × ℚ :=
  match output_srid with
  | none => (xy_bounds x y z, none, 0)
  | some srid =>
    let tile_count : ℚ := 2 ^ z
    let tile_width_in_metres : ℚ := (map_bbox.right - map_bbox.left) / tile_count
    let tile_height_in_metres : ℚ := (map_bbox.top - map_bbox.bottom) / tile_count
    (⟨map_bbox.left + x * tile_width_in_metres,
        map_bbox.top - (y + 1) * tile_height_in_metres,
        map_bbox.left + (x + 1) * tile_width_in_metres,
        map_bbox.top - y * tile_height_in_metres⟩,
      some srid, tile_width_in_metres / 50)

/-- The process-wide catalog fields of `Config` used by `get_tile_tm2`:
the cached compiled query and the monotonic timestamp of its compilation,
both initially `None`. -/
structure CatalogState where
  tm2query : Option (List Char)
  auto_tm2_ts : Option ℚ
deriving DecidableEq, Repr

/-- The staleness test of `get_tile_tm2`:
`Config.tm2query == None or (time.monotonic() - Config.auto_tm2_ts) > 10`.
Python's `or` short-circuits, so a `None` query refreshes without looking
at the timestamp; but with a query present and a `None` timestamp the
subtraction raises `TypeError`. -/
def refreshGuard (tm2query : Option (List Char)) (ts : Option ℚ) (now : ℚ) :
    Except PyError Bool :=
  match tm2query with
  | none => Except.ok true
  | some _ =>
    match ts with
    | none => Except.error PyError.typeError
    | some t => Except.ok (decide (now - t > 10))

/-- The auto-mode layer synthesis of `get_tile_tm2`: keep the introspected
table names containing `3949` and give each one a descriptor whose
subquery calls the per-table stored procedure `layer_<table>` on the bbox
and minimum-length tokens. -/
def introspectSources (table_names : List (List Char)) : List Layer :=
  (table_names.filter (fun t => decide ("3949".data <:+: t))).map
    (fun t =>
      ⟨t, "geom".data,
        chLParen ::
          ("select geom from layer_".data ++ t ++
            "(!bbox!::box2d, !min_length!::float)) AS t".data)⟩)

/-- The refresh body of `get_tile_tm2`: synthesize descriptors from the
introspected table names, compile them, and stamp the state with the
current monotonic time.  The recompiled query is the one used by the
request that refreshed. -/
def refreshCatalog (now : ℚ) (table_names : List (List Char)) :
    Except PyError (CatalogState × List Char) :=
  match prepared_query (TM2Input.layersObj (introspectSources table_names)) with
  | Except.error e => Except.error e
  | Except.ok q => Except.ok (⟨some q, some now⟩, q)

/-- The catalog step of `get_tile_tm2`: refresh when the guard fires,
otherwise serve the cached query unchanged.  `table_names` stands for the
result the schema introspection would return if it ran; a branch whose
value does not depend on it performed no introspection. -/
def get_tile_tm2_step (st : CatalogState) (now : ℚ)
    (table_names : List (List Char)) : Except PyError (CatalogState × List Char) :=
  match st.tm2query with
  | none => refreshCatalog now table_names
  | some q =>
    match st.auto_tm2_ts with
    | none => Except.error PyError.typeError
    | some t =>
      if now - t > 10 then refreshCatalog now table_names
      else Except.ok (st, q)

/-- The static-mode startup of `main` for a tm2 argument other than
`auto`: compile the file once into `Config.tm2query`, leaving
`Config.auto_tm2_ts` at `None`. -/
def mainStaticStartup (filename : List Char) :
    Except PyError (CatalogState) :=
  match prepared_query (TM2Input.file filename) with
  | Except.error e => Except.error e
  | Except.ok q => Except.ok ⟨some q, none⟩

/-- A binary row payload. -/
abbrev Bytes := List ℕ

/-- Python truthiness of a fetched row's single column: `None` and the
empty byte string are falsy. -/
def pyTruthy : Option Bytes → Bool
  | none => false
  | some bs => bs ≠ []

/-- The tile assembly of both handlers:
`b"".join([row[0] for row in rows if row[0]])`. -/
def tileBytes (rows : List (Option Bytes)) : Bytes :=
  ((rows.filter pyTruthy).filterMap id).flatten

/-- An HTTP response at the granularity the claims need. -/
structure HttpResponse where
  status : ℕ
  contentType : List Char
  body : Bytes
deriving DecidableEq, Repr

/-- Model of `sanic.response.raw(pbf, headers=...)` as called by both tile
handlers: status defaults to `200` and the fixed binary content type is
attached (framework behaviour, modelled at its interface). -/
def rawTileResponse (rows : List (Option Bytes)) : HttpResponse :=
  ⟨200, "application/x-protobuf".data, tileBytes rows⟩

/-- What the direct-layer handler `get_tile_postgis` does before touching
the database: either an early plain-text rejection, or it proceeds to
format and execute the single-layer query (the store is contacted only on
this branch). -/
inductive DirectOutcome where
  | reject : ℕ → List Char → DirectOutcome
  | proceed : List Char → Option (List Char) → Bbox × Option (List Char) × ℚ →
      DirectOutcome
deriving DecidableEq, Repr

/-- The head of `get_tile_postgis`: a layer name containing a space
character (Python `" " in layer`) is rejected with status 404 and a
descriptive body; otherwise the handler resolves the geometry column,
computes the bbox and proceeds to the store. -/
def get_tile_postgis_core (layer : List Char) (x y z : ℕ)
    (geomArg : Option (List Char)) : DirectOutcome :=
  if chSpace ∈ layer then
    DirectOutcome.reject 404 ("bad layer name: ".data ++ layer)
  else
    DirectOutcome.proceed layer (some (geomArg.getD "geom".data))
      (sql_bbox x y z (some "3949".data))

/-- Whether a direct-mode outcome is an early rejection. -/
def isReject : DirectOutcome → Bool
  | DirectOutcome.reject _ _ => true
  | DirectOutcome.proceed _ _ _ => false

/-- Whether a string contains a Python whitespace character. -/
def containsPyWhitespace (s : List Char) : Bool := s.any pyIsSpace

/-- The five placeholder names supplied at format time by the dispatcher:
`tm2query.format(bbox=..., scale_denominator=..., pixel_width=...,
pixel_height=..., min_length=...)`. -/
def phNames : List (List Char) :=
  ["bbox".data, "scale_denominator".data, "pixel_width".data,
    "pixel_height".data, "min_length".data]

/-- Scanner for the named replacement fields of a Python format string:
outside a field (`acc = none`) a `{` opens one, inside a field
(`acc = some name`) a `}` closes it.  This models simple `{name}` fields,
the only kind the compiler emits; brace escapes and stray braces do not
arise in the strings this development applies it to. -/
def phAux : List Char → Option (List Char) → List (List Char)
  | [], _ => []
  | c :: rest, none =>
    if c = chLBrace then phAux rest (some []) else phAux rest none
  | c :: rest, some acc =>
    if c = chRBrace then acc :: phAux rest none
    else phAux rest (some (acc ++ [c]))

/-- The named placeholders of a template, in order of occurrence. -/
def extractPH (s : List Char) : List (List Char) := phAux s none

/-- Look for a recognized field right after an opening brace: one of the
five names followed by a closing brace. -/
def fieldFind (rest : List Char) : Option (List Char) :=
  phNames.find? (fun n => (n ++ [chRBrace]).isPrefixOf rest)

/-- Model of `str.format` restricted to the five named arguments the
dispatcher passes, with fuel as in `pyReplaceAux`: substitute each
`{name}` field; an unknown field name or a stray brace is a format-time
error (`KeyError`/`ValueError`), returned as `none`. -/
def pyFormatFiveAux (bbox sd pw ph ml : List Char) :
    ℕ → List Char → Option (List Char)
  | _, [] => some []
  | 0, _ :: _ => none
  | fuel + 1, c :: rest =>
    if c = chLBrace then
      match fieldFind rest with
      | some n =>
        let v :=
          if n = "bbox".data then bbox
          else if n = "scale_denominator".data then sd
          else if n = "pixel_width".data then pw
          else if n = "pixel_height".data then ph
          else ml
        match pyFormatFiveAux bbox sd pw ph ml fuel (List.drop (n.length + 1) rest) with
        | some out => some (v ++ out)
        | none => none
      | none => none
    else if c = chRBrace then none
    else
      match pyFormatFiveAux bbox sd pw ph ml fuel rest with
      | some out => some (c :: out)
      | none => none

/-- The dispatcher's `tm2query.format(bbox=..., scale_denominator=...,
pixel_width=..., pixel_height=..., min_length=...)` call. -/
def formatFive (tmpl bbox sd pw ph ml : List Char) : Option (List Char) :=
  pyFormatFiveAux bbox sd pw ph ml tmpl.length tmpl

/-- Modelled from the spec: executing a compiled template that is the
`union all` of the per-layer selects returns the concatenation of each
layer's result rows as peer result sets (spec sections 4.2 and 4.4); for
an empty layer set there are no per-layer selects and no rows.  The
backing store itself is an external collaborator. -/
def execUnionAll (rowsPerLayer : List (List (Option Bytes))) : List (Option Bytes) :=
  rowsPerLayer.flatten

/-- No brace character occurs in the string. -/
def BraceFree (s : List Char) : Prop :=
  ∀ c ∈ s, c ≠ chLBrace ∧ c ≠ chRBrace

/-- Grammar of the strings the compiler emits: literal non-brace
characters interleaved with complete `{name}` fields over the five
recognized names. -/
inductive Frag : List Char → Prop where
  | nil : Frag []
  | lit {c : Char} {s : List Char} :
      c ≠ chLBrace → c ≠ chRBrace → Frag s → Frag (c :: s)
  | field {n s : List Char} :
      n ∈ phNames → Frag s → Frag (chLBrace :: (n ++ chRBrace :: s))

/-- Executable check for `Frag`, as a scanner with the same field state
as `phAux`: inside a field the accumulated name must end up being one of
the five recognized names. -/
def fragChkAux : List Char → Option (List Char) → Bool
  | [], none => true
  | [], some _ => false
  | c :: rest, none =>
    if c = chLBrace then fragChkAux rest (some [])
    else if c = chRBrace then false
    else fragChkAux rest none
  | c :: rest, some acc =>
    if c = chRBrace then decide (acc ∈ phNames) && fragChkAux rest none
    else fragChkAux rest (some (acc ++ [c]))

/-- Executable check for `Frag`. -/
def fragChk (s : List Char) : Bool := fragChkAux s none

/-! ### Replace / split correspondence -/

/-- `pySplitAux` always yields at least one piece. -/
theorem pySplitAux_ne_nil (p : List Char) :
    ∀ (n : ℕ) (acc s : List Char), pySplitAux p n acc s ≠ [] := by
  intro n
  induction n with
  | zero => intro acc s; cases s <;> simp [pySplitAux]
  | succ n ih =>
    intro acc s
    cases s with
    | nil => simp [pySplitAux]
    | cons c rest =>
      rw [pySplitAux]
      by_cases h : p.isPrefixOf (c :: rest) <;> simp [h]
      exact ih (acc ++ [c]) rest

/-- `intercalate` over a two-or-more element list unfolds one step. -/
theorem intercalate_cons_of_ne_nil (b a : List Char) (l : List (List Char))
    (h : l ≠ []) :
    List.intercalate b (a :: l) = a ++ b ++ List.intercalate b l := by
  cases l with
  | nil => exact absurd rfl h
  | cons x l' =>
    simp [List.intercalate, List.intersperse, List.flatten, List.append_assoc]

/-- Joining the split pieces with the replacement, starting from the piece
accumulator `acc`, rebuilds exactly the replacement scan's output. -/
theorem pySplitAux_intercalate (p b : List Char) :
    ∀ (n : ℕ) (s acc : List Char),
      List.intercalate b (pySplitAux p n acc s) = acc ++ pyReplaceAux p b n s := by
  intro n
  induction n with
  | zero =>
    intro s acc
    cases s <;>
      simp [pySplitAux, pyReplaceAux, List.intercalate, List.intersperse]
  | succ n ih =>
    intro s acc
    cases s with
    | nil => simp [pySplitAux, pyReplaceAux, List.intercalate, List.intersperse]
    | cons c rest =>
      rw [pySplitAux, pyReplaceAux]
      by_cases h : p.isPrefixOf (c :: rest)
      · simp only [h, if_true]
        rw [intercalate_cons_of_ne_nil _ _ _ (pySplitAux_ne_nil _ _ _ _)]
        rw [ih _ []]
        simp [List.append_assoc]
      · simp only [h, Bool.false_eq_true, if_false]
        rw [ih rest (acc ++ [c])]
        simp

/-- Python `replace` equals splitting on the pattern and interleaving the
replacement: every leftmost non-overlapping occurrence is rewritten. -/
theorem pyReplace_eq_intercalate_pySplit (p b s : List Char) (hp : p ≠ []) :
    pyReplace s p b = List.intercalate b (pySplit p s) := by
  rw [pyReplace, if_neg hp, pySplit, pySplitAux_intercalate p b s.length s []]
  simp

/-! ### Placeholder grammar lemmas -/

instance braceFreeDecidable (s : List Char) : Decidable (BraceFree s) :=
  List.decidableBAll _ s

/-- Unfolding `phAux` on the empty string. -/
theorem phAux_nil (st : Option (List Char)) : phAux [] st = [] := by
  cases st <;> rfl

/-- Unfolding `phAux` at an opening brace outside a field. -/
theorem phAux_open (rest : List Char) :
    phAux (chLBrace :: rest) none = phAux rest (some []) := by
  simp [phAux]

/-- Unfolding `phAux` at a literal character outside a field. -/
theorem phAux_lit (c : Char) (rest : List Char) (hc : c ≠ chLBrace) :
    phAux (c :: rest) none = phAux rest none := by
  simp [phAux, hc]

/-- Unfolding `phAux` at a non-closing character inside a field. -/
theorem phAux_inside (c : Char) (rest acc : List Char) (hc : c ≠ chRBrace) :
    phAux (c :: rest) (some acc) = phAux rest (some (acc ++ [c])) := by
  simp [phAux, hc]

/-- Unfolding `phAux` at a closing brace inside a field. -/
theorem phAux_close (rest acc : List Char) :
    phAux (chRBrace :: rest) (some acc) = acc :: phAux rest none := by
  simp [phAux]

/-- A brace-free string contains no placeholder fields. -/
theorem extractPH_braceFree (a : List Char) (ha : BraceFree a) :
    extractPH a = [] := by
  induction a with
  | nil => rfl
  | cons c rest ih =>
    have hc := ha c (List.mem_cons_self c rest)
    have hrest : BraceFree rest := fun d hd => ha d (List.mem_cons_of_mem c hd)
    rw [extractPH, phAux_lit c rest hc.1]
    exact ih hrest

/-- A brace-free string is in the fragment grammar. -/
theorem frag_of_braceFree (a : List Char) (ha : BraceFree a) : Frag a := by
  induction a with
  | nil => exact Frag.nil
  | cons c rest ih =>
    have hc := ha c (List.mem_cons_self c rest)
    have hrest : BraceFree rest := fun d hd => ha d (List.mem_cons_of_mem c hd)
    exact Frag.lit hc.1 hc.2 (ih hrest)

/-- The fragment grammar is closed under concatenation. -/
theorem frag_append {a b : List Char} (ha : Frag a) (hb : Frag b) :
    Frag (a ++ b) := by
  induction ha with
  | nil => simpa using hb
  | lit h1 h2 _ ih => exact Frag.lit h1 h2 ih
  | field hn _ ih =>
    rw [List.cons_append, List.append_assoc, List.cons_append]
    exact Frag.field hn ih

/-- A fragment starting with a non-brace character continues as a
fragment. -/
theorem frag_cons_inv {c : Char} {s : List Char} (h : Frag (c :: s))
    (hc : c ≠ chLBrace) : Frag s := by
  cases h with
  | lit _ _ h3 => exact h3
  | field _ _ => exact absurd rfl hc

/-- Peeling a brace-free prefix off a fragment leaves a fragment. -/
theorem frag_of_braceFree_append {q t : List Char} (h : Frag (q ++ t))
    (hq : BraceFree q) : Frag t := by
  induction q with
  | nil => simpa using h
  | cons c q' ih =>
    have hc := hq c (List.mem_cons_self c q')
    have hq' : BraceFree q' := fun d hd => hq d (List.mem_cons_of_mem c hd)
    rw [List.cons_append] at h
    exact ih (frag_cons_inv h hc.1) hq'

/-- Every placeholder name contains no brace character. -/
theorem phNames_braceFree : ∀ n ∈ phNames, BraceFree n := by decide

/-- Closing a field: scanning a name (free of closing braces) followed by a
closing brace emits the accumulated name and resumes outside fields. -/
theorem phAux_field (n : List Char) (hn : ∀ c ∈ n, c ≠ chRBrace) :
    ∀ (acc s : List Char),
      phAux (n ++ chRBrace :: s) (some acc) = (acc ++ n) :: phAux s none := by
  induction n with
  | nil =>
    intro acc s
    rw [List.nil_append, phAux_close, List.append_nil]
  | cons c n' ih =>
    intro acc s
    have hc := hn c (List.mem_cons_self c n')
    have hn' : ∀ d ∈ n', d ≠ chRBrace := fun d hd => hn d (List.mem_cons_of_mem c hd)
    rw [List.cons_append, phAux_inside c _ acc hc, ih hn' (acc ++ [c]) s]
    simp

/-- Placeholder extraction distributes over concatenation when the left
part is a complete fragment. -/
theorem extractPH_append (a b : List Char) (ha : Frag a) :
    extractPH (a ++ b) = extractPH a ++ extractPH b := by
  induction ha with
  | nil => simp [extractPH, phAux_nil]
  | lit h1 h2 hf ih =>
    rename_i c s
    rw [List.cons_append, extractPH, phAux_lit c _ h1, extractPH,
      phAux_lit c s h1]
    exact ih
  | field hn hf ih =>
    rename_i n s
    have hnr : ∀ c ∈ n, c ≠ chRBrace := fun c hc =>
      (phNames_braceFree n hn c hc).2
    rw [List.cons_append, List.append_assoc, List.cons_append, extractPH,
      phAux_open, phAux_field n hnr [] (s ++ b), extractPH, phAux_open,
      phAux_field n hnr [] s]
    simp only [List.nil_append, List.cons_append]
    show n :: extractPH (s ++ b) = n :: (extractPH s ++ extractPH b)
    rw [ih]

/-- Every placeholder of a fragment is one of the five recognized names. -/
theorem extractPH_mem_phNames {s : List Char} (hs : Frag s) :
    ∀ m ∈ extractPH s, m ∈ phNames := by
  induction hs with
  | nil => intro m hm; simp [extractPH, phAux_nil] at hm
  | lit h1 h2 hf ih =>
    rename_i c s
    intro m hm
    rw [extractPH, phAux_lit c s h1] at hm
    exact ih m hm
  | field hn hf ih =>
    rename_i n s
    intro m hm
    have hnr : ∀ c ∈ n, c ≠ chRBrace := fun c hc =>
      (phNames_braceFree n hn c hc).2
    rw [extractPH, phAux_open, phAux_field n hnr [] s] at hm
    simp only [List.nil_append] at hm
    rcases List.mem_cons.mp hm with h | h
    · exact h ▸ hn
    · exact ih m h

/-! ### Fragment preservation by the rewriting pipeline -/

/-- Brace-freeness is inherited by contained strings. -/
theorem braceFree_mono {s t : List Char} (h : t ⊆ s) (hs : BraceFree s) :
    BraceFree t := fun c hc => hs c (h hc)

/-- Replacing inside a brace-free string with a fragment replacement
yields a fragment (nonempty-pattern scan, any fuel). -/
theorem frag_pyReplaceAux_of_braceFree (p b : List Char) (hb : Frag b) :
    ∀ (n : ℕ) (s : List Char), BraceFree s → Frag (pyReplaceAux p b n s) := by
  intro n
  induction n with
  | zero => intro s _; cases s <;> exact Frag.nil
  | succ n ih =>
    intro s hs
    cases s with
    | nil => exact Frag.nil
    | cons c rest =>
      have hc := hs c (List.mem_cons_self c rest)
      have hrest : BraceFree rest :=
        braceFree_mono (List.subset_cons_self c rest) hs
      rw [pyReplaceAux]
      by_cases hpre : p.isPrefixOf (c :: rest)
      · simp only [hpre, if_true]
        have hdbf : BraceFree (List.drop (p.length - 1) rest) :=
          braceFree_mono (List.drop_suffix _ rest).subset hrest
        exact frag_append hb (ih _ hdbf)
      · simp only [hpre, Bool.false_eq_true, if_false]
        exact Frag.lit hc.1 hc.2 (ih rest hrest)

/-- `pyReplace` on a brace-free subject with a fragment replacement yields
a fragment, for any pattern (the empty pattern interleaves the
replacement between the subject's characters). -/
theorem frag_pyReplace_of_braceFree (s p b : List Char) (hs : BraceFree s)
    (hb : Frag b) : Frag (pyReplace s p b) := by
  rw [pyReplace]
  by_cases hp : p = []
  · simp only [hp, if_true]
    refine frag_append hb ?_
    clear hp
    induction s with
    | nil => exact Frag.nil
    | cons c rest ih =>
      have hc := hs c (List.mem_cons_self c rest)
      have hrest : BraceFree rest :=
        braceFree_mono (List.subset_cons_self c rest) hs
      exact Frag.lit hc.1 hc.2 (frag_append hb (ih hrest))
  · simp only [hp, if_false]
    exact frag_pyReplaceAux_of_braceFree p b hb s.length s hs

/-- Fuel does not matter once it covers the subject length. -/
theorem pyReplaceAux_fuel_irrel (p b : List Char) :
    ∀ (f₁ : ℕ) (s : List Char) (f₂ : ℕ), s.length ≤ f₁ → s.length ≤ f₂ →
      pyReplaceAux p b f₁ s = pyReplaceAux p b f₂ s := by
  intro f₁
  induction f₁ with
  | zero =>
    intro s f₂ h1 _
    have : s = [] := List.length_eq_zero.mp (Nat.le_zero.mp h1)
    subst this
    cases f₂ <;> rfl
  | succ f ih =>
    intro s f₂ h1 h2
    cases s with
    | nil => cases f₂ <;> rfl
    | cons c rest =>
      cases f₂ with
      | zero => simp at h2
      | succ g =>
        rw [pyReplaceAux, pyReplaceAux]
        simp only [List.length_cons] at h1 h2
        by_cases hpre : p.isPrefixOf (c :: rest)
        · simp only [hpre, if_true]
          congr 1
          apply ih
          · simp only [List.length_drop]; omega
          · simp only [List.length_drop]; omega
        · simp only [hpre, Bool.false_eq_true, if_false]
          congr 1
          apply ih <;> omega

/-- A pattern whose head character cannot occur inside a field scans over
a complete field without matching, consuming one fuel unit per
character. -/
theorem pyReplaceAux_skip_field (b : List Char) (c₀ : Char) (p' : List Char)
    (hc0r : c₀ ≠ chRBrace) :
    ∀ (m : List Char) (f : ℕ) (s : List Char), (∀ c ∈ m, c₀ ≠ c) →
      pyReplaceAux (c₀ :: p') b (m.length + 1 + f) (m ++ chRBrace :: s) =
        m ++ chRBrace :: pyReplaceAux (c₀ :: p') b f s := by
  intro m
  induction m with
  | nil =>
    intro f s _
    have hfe : ([] : List Char).length + 1 + f = f + 1 := by simp; omega
    rw [List.nil_append, hfe, pyReplaceAux]
    have hnp : ¬ (c₀ :: p').isPrefixOf (chRBrace :: s) := by
      simp [List.isPrefixOf, hc0r]
    simp [hnp]
  | cons d m' ih =>
    intro f s hm
    have hd : c₀ ≠ d := hm d (List.mem_cons_self d m')
    have hm' : ∀ c ∈ m', c₀ ≠ c := fun c hc => hm c (List.mem_cons_of_mem d hc)
    have hfe : (d :: m').length + 1 + f = (m'.length + 1 + f) + 1 := by
      simp; omega
    rw [List.cons_append, hfe, pyReplaceAux]
    have hnp : ¬ (c₀ :: p').isPrefixOf (d :: (m' ++ chRBrace :: s)) := by
      simp [List.isPrefixOf, hd]
    simp only [hnp, Bool.false_eq_true, if_false]
    rw [ih f s hm']
    rfl

/-- Replacing a brace-free pattern, whose head character occurs in no
recognized field name, inside a fragment with a fragment replacement
yields a fragment. -/
theorem frag_pyReplaceAux_of_frag (b : List Char) (c₀ : Char) (p' : List Char)
    (hbfp : BraceFree (c₀ :: p')) (hc₀ : ∀ m ∈ phNames, c₀ ∉ m)
    (hb : Frag b) :
    ∀ (n : ℕ) (s : List Char), s.length ≤ n → Frag s →
      Frag (pyReplaceAux (c₀ :: p') b n s) := by
  intro n
  induction n with
  | zero =>
    intro s hlen _
    have : s = [] := List.length_eq_zero.mp (Nat.le_zero.mp hlen)
    subst this
    exact Frag.nil
  | succ n ih =>
    intro s hlen hs
    cases hs with
    | nil => exact Frag.nil
    | lit h1 h2 hf =>
      rename_i c s₂
      have hs₂len : s₂.length ≤ n := by
        simpa [Nat.succ_le_succ_iff] using hlen
      rw [pyReplaceAux]
      by_cases hpre : (c₀ :: p').isPrefixOf (c :: s₂)
      · simp only [hpre, if_true]
        have hpfx : (c₀ :: p') <+: (c :: s₂) :=
          List.isPrefixOf_iff_prefix.mp hpre
        rcases List.cons_prefix_cons.mp hpfx with ⟨hceq, hp'pfx⟩
        rcases hp'pfx with ⟨t, ht⟩
        have hbfp' : BraceFree p' :=
          braceFree_mono (List.subset_cons_self c₀ p') hbfp
        have hdrop : List.drop ((c₀ :: p').length - 1) s₂ = t := by
          rw [← ht]
          simp only [List.length_cons, Nat.add_sub_cancel]
          exact List.drop_left p' t
        have hft : Frag t := by
          have : Frag (p' ++ t) := ht ▸ hf
          exact frag_of_braceFree_append this hbfp'
        have htlen : t.length ≤ n := by
          have : s₂.length = p'.length + t.length := by
            rw [← ht]; simp
          omega
        rw [hdrop]
        exact frag_append hb (ih t htlen hft)
      · simp only [hpre, Bool.false_eq_true, if_false]
        exact Frag.lit h1 h2 (ih s₂ hs₂len hf)
    | field hn hf =>
      rename_i m s₂
      have hlen' : m.length + 1 + s₂.length ≤ n := by
        simp only [List.length_cons, List.length_append] at hlen
        omega
      have hs₂len : s₂.length ≤ n := by omega
      have hmlen : (m ++ chRBrace :: s₂).length = m.length + 1 + s₂.length := by
        simp; omega
      have hc0l : c₀ ≠ chLBrace :=
        (hbfp c₀ (List.mem_cons_self c₀ p')).1
      have hc0r : c₀ ≠ chRBrace :=
        (hbfp c₀ (List.mem_cons_self c₀ p')).2
      rw [pyReplaceAux]
      have hnopre : ¬ (c₀ :: p').isPrefixOf
          (chLBrace :: (m ++ chRBrace :: s₂)) := by
        simp [List.isPrefixOf, hc0l]
      simp only [hnopre, Bool.false_eq_true, if_false]
      have hmch : ∀ c ∈ m, c₀ ≠ c := fun c hc he =>
        (hc₀ m hn) (he ▸ hc)
      have hstep : pyReplaceAux (c₀ :: p') b n (m ++ chRBrace :: s₂) =
          m ++ chRBrace :: pyReplaceAux (c₀ :: p') b n s₂ := by
        rw [pyReplaceAux_fuel_irrel (c₀ :: p') b n (m ++ chRBrace :: s₂)
            (m.length + 1 + s₂.length) (by rw [hmlen]; omega) (by rw [hmlen]),
          pyReplaceAux_skip_field b c₀ p' hc0r m s₂.length s₂ hmch,
          pyReplaceAux_fuel_irrel (c₀ :: p') b s₂.length s₂ n le_rfl hs₂len]
      rw [hstep]
      exact Frag.field hn (ih s₂ hs₂len hf)

/-- Soundness of the executable fragment scanner, in both scanner
states. -/
theorem fragChkAux_sound : ∀ s : List Char,
    (fragChkAux s none = true → Frag s) ∧
    (∀ acc, fragChkAux s (some acc) = true →
      ∃ m t, s = m ++ chRBrace :: t ∧ (acc ++ m) ∈ phNames ∧ Frag t) := by
  intro s
  induction s with
  | nil =>
    constructor
    · intro _; exact Frag.nil
    · intro acc h; exact absurd h (by simp [fragChkAux])
  | cons c rest ih =>
    constructor
    · intro h
      rw [fragChkAux] at h
      by_cases hcl : c = chLBrace
      · rw [if_pos hcl] at h
        rcases ih.2 [] h with ⟨m, t, hshape, hmem, hft⟩
        rw [hshape, hcl]
        exact Frag.field (by simpa using hmem) hft
      · rw [if_neg hcl] at h
        by_cases hcr : c = chRBrace
        · rw [if_pos hcr] at h; exact absurd h (by simp)
        · rw [if_neg hcr] at h
          exact Frag.lit hcl hcr (ih.1 h)
    · intro acc h
      rw [fragChkAux] at h
      by_cases hcr : c = chRBrace
      · rw [if_pos hcr] at h
        rcases (Bool.and_eq_true _ _).mp h with ⟨h1, h2⟩
        refine ⟨[], rest, by rw [hcr, List.nil_append], ?_, ih.1 h2⟩
        simpa using of_decide_eq_true h1
      · rw [if_neg hcr] at h
        rcases ih.2 (acc ++ [c]) h with ⟨m', t, hshape, hmem, hft⟩
        refine ⟨c :: m', t, by rw [hshape, List.cons_append], ?_, hft⟩
        have hacc : acc ++ c :: m' = (acc ++ [c]) ++ m' := by simp
        rw [hacc]
        exact hmem

/-- Soundness of the executable fragment check. -/
theorem frag_of_fragChk (s : List Char) (h : fragChk s = true) : Frag s :=
  (fragChkAux_sound s).1 h

/-- Characters of the greedy group come from the subject. -/
theorem greedySplit_subset :
    ∀ (s q : List Char), greedySplit s = some q → q ⊆ s := by
  intro s
  induction s with
  | nil => intro q h; exact absurd h (by simp [greedySplit])
  | cons c rest ih =>
    intro q h
    rw [greedySplit] at h
    cases hg : greedySplit rest with
    | some q' =>
      rw [hg] at h
      have : q = c :: q' := by
        simpa using h.symm
      subst this
      intro d hd
      rcases List.mem_cons.mp hd with h1 | h1
      · exact h1 ▸ List.mem_cons_self c rest
      · exact List.mem_cons_of_mem c (ih q' hg h1)
    | none =>
      rw [hg] at h
      by_cases hc : c = chRParen ∧ tailAsAlias rest
      · rw [if_pos hc] at h
        have : q = [] := by simpa using h.symm
        subst this
        intro d hd
        exact absurd hd (List.not_mem_nil d)
      · rw [if_neg hc] at h
        exact absurd h (by simp)

/-- Characters of the extracted query group come from the matched text. -/
theorem layerqueryMatch_subset (s q : List Char)
    (h : layerqueryMatch s = some q) : q ⊆ s := by
  rw [layerqueryMatch] at h
  cases hd : s.dropWhile (fun c => pyIsSpace c) with
  | nil => rw [hd] at h; exact absurd h (by simp)
  | cons c body =>
    rw [hd] at h
    have h' : (if c = chLParen then greedySplit body else none) = some q := h
    by_cases hc : c = chLParen
    · rw [if_pos hc] at h'
      have hsub : q ⊆ body := greedySplit_subset body q h'
      have hbody : body ⊆ s := by
        intro d hdm
        have : d ∈ c :: body := List.mem_cons_of_mem c hdm
        rw [← hd] at this
        exact (List.dropWhile_suffix _).subset this
      exact hsub.trans hbody
    · rw [if_neg hc] at h'
      exact absurd h' (by simp)

/-- Fragments are closed under flattening. -/
theorem frag_flatten (ps : List (List Char)) (h : ∀ p ∈ ps, Frag p) :
    Frag ps.flatten := by
  induction ps with
  | nil => exact Frag.nil
  | cons p ps' ih =>
    rw [List.flatten_cons]
    exact frag_append (h p (List.mem_cons_self p ps'))
      (ih fun x hx => h x (List.mem_cons_of_mem p hx))

/-- Extraction distributes over flattening of fragments. -/
theorem extractPH_flatten (ps : List (List Char)) (h : ∀ p ∈ ps, Frag p) :
    extractPH ps.flatten = (ps.map extractPH).flatten := by
  induction ps with
  | nil => simp [extractPH, phAux_nil]
  | cons p ps' ih =>
    rw [List.flatten_cons, extractPH_append _ _ (h p (List.mem_cons_self p ps')),
      List.map_cons, List.flatten_cons,
      ih fun x hx => h x (List.mem_cons_of_mem p hx)]

/-- Joining fragments with a fragment separator yields a fragment. -/
theorem frag_intercalate (sep : List Char) (hsep : Frag sep) :
    ∀ (qs : List (List Char)), (∀ q ∈ qs, Frag q) →
      Frag (List.intercalate sep qs) := by
  intro qs
  induction qs with
  | nil => intro _; simp only [List.intercalate, List.intersperse,
      List.flatten_nil]; exact Frag.nil
  | cons q qs' ih =>
    intro h
    cases qs' with
    | nil =>
      have : List.intercalate sep [q] = q := by
        simp [List.intercalate, List.intersperse]
      rw [this]
      exact h q (List.mem_cons_self q [])
    | cons q₂ qs'' =>
      rw [intercalate_cons_of_ne_nil sep q (q₂ :: qs'') (by simp)]
      exact frag_append
        (frag_append (h q (List.mem_cons_self q _))
          hsep)
        (ih fun x hx => h x (List.mem_cons_of_mem q hx))

/-- A placeholder of the head query survives joining. -/
theorem mem_extractPH_intercalate_head (sep : List Char) (hsep : Frag sep)
    (q : List Char) (hq : Frag q) (qs' : List (List Char)) (m : List Char)
    (hm : m ∈ extractPH q) :
    m ∈ extractPH (List.intercalate sep (q :: qs')) := by
  cases qs' with
  | nil =>
    have : List.intercalate sep [q] = q := by
      simp [List.intercalate, List.intersperse]
    rw [this]
    exact hm
  | cons q₂ qs'' =>
    rw [intercalate_cons_of_ne_nil sep q (q₂ :: qs'') (by simp),
      extractPH_append _ _ (frag_append hq hsep),
      extractPH_append _ _ hq]
    exact List.mem_append_left _ (List.mem_append_left _ hm)

/-- The clip expression is a fragment whenever the geometry-field name is
brace-free. -/
theorem frag_clipExpr (gf : List Char) (hgf : BraceFree gf) :
    Frag (clipExpr gf) := by
  rw [clipExpr]
  exact frag_append
    (frag_append (frag_of_braceFree _ (by decide)) (frag_of_braceFree gf hgf))
    (frag_of_fragChk _ (by decide))

/-- The geometry-field rewrite of a brace-free inner query is a
fragment. -/
theorem frag_geomRewrite (inner gf : List Char) (hin : BraceFree inner)
    (hgf : BraceFree gf) : Frag (pyReplace inner gf (clipExpr gf)) :=
  frag_pyReplace_of_braceFree inner gf (clipExpr gf) hin (frag_clipExpr gf hgf)

/-- One token substitution step preserves fragments (stated for the five
concrete token patterns, whose head `!` occurs in no field name). -/
theorem frag_tokenStep (p b s : List Char) (hp : p = Char.ofNat 33 :: p.tail)
    (hpbf : BraceFree p) (hbang : ∀ m ∈ phNames, Char.ofNat 33 ∉ m)
    (hb : Frag b) (hs : Frag s) : Frag (pyReplace s p b) := by
  rw [pyReplace, if_neg (by rw [hp]; simp)]
  rw [hp]
  exact frag_pyReplaceAux_of_frag b (Char.ofNat 33) p.tail (hp ▸ hpbf) hbang hb
    s.length s le_rfl hs

/-- No field name contains the token delimiter `!`. -/
theorem phNames_no_bang : ∀ m ∈ phNames, Char.ofNat 33 ∉ m := by decide

/-- The full inline-token substitution preserves fragments. -/
theorem frag_tokenSubst (q : List Char) (hq : Frag q) : Frag (tokenSubst q) := by
  rw [tokenSubst]
  refine frag_tokenStep _ _ _ (by decide) (by decide) phNames_no_bang
    (frag_of_fragChk _ (by decide)) ?_
  refine frag_tokenStep _ _ _ (by decide) (by decide) phNames_no_bang
    (frag_of_fragChk _ (by decide)) ?_
  refine frag_tokenStep _ _ _ (by decide) (by decide) phNames_no_bang
    (frag_of_fragChk _ (by decide)) ?_
  refine frag_tokenStep _ _ _ (by decide) (by decide) phNames_no_bang
    (frag_of_fragChk _ (by decide)) ?_
  exact frag_tokenStep _ _ _ (by decide) (by decide) phNames_no_bang
    (frag_of_fragChk _ (by decide)) hq

/-- The per-layer wrapper is a fragment when the id and geometry-field
texts are brace-free and the rewritten inner query is a fragment. -/
theorem frag_wrapLayer (lid q gf : List Char) (hlid : BraceFree lid)
    (hgf : BraceFree gf) (hq : Frag q) : Frag (wrapLayer lid q gf) := by
  have hW1 : Frag "\n            select st_asmvt(tile, ".data :=
    frag_of_braceFree _ (by decide)
  have hQt : Frag [chQuote] := frag_of_braceFree _ (by decide)
  have hlidF : Frag lid := frag_of_braceFree _ hlid
  have hW5 : Frag ", 4096, ".data := frag_of_braceFree _ (by decide)
  have hW7 : Frag "mvtgeom".data := frag_of_braceFree _ (by decide)
  have hW9 : Frag ")\n            from (".data := frag_of_braceFree _ (by decide)
  have hW11 : Frag " where st_asmvtgeom(st_intersection(".data :=
    frag_of_braceFree _ (by decide)
  have hW13 : Frag ", {bbox}), {bbox}) is not null) as tile\n        ".data :=
    frag_of_fragChk _ (by decide)
  rw [wrapLayer]
  exact frag_append (frag_append (frag_append (frag_append (frag_append
    (frag_append (frag_append (frag_append (frag_append (frag_append
      (frag_append (frag_append hW1 hQt) hlidF) hQt) hW5) hQt) hW7) hQt)
        hW9) hq) hW11) (frag_of_braceFree gf hgf)) hW13

/-- The placeholders of the per-layer wrapper: those of the rewritten
inner query followed by the two bbox fields of the null filter. -/
theorem extractPH_wrapLayer (lid q gf : List Char) (hlid : BraceFree lid)
    (hgf : BraceFree gf) (hq : Frag q) :
    extractPH (wrapLayer lid q gf) =
      extractPH q ++ ["bbox".data, "bbox".data] := by
  have hW1 : Frag "\n            select st_asmvt(tile, ".data :=
    frag_of_braceFree _ (by decide)
  have hQt : Frag [chQuote] := frag_of_braceFree _ (by decide)
  have hlidF : Frag lid := frag_of_braceFree _ hlid
  have hW5 : Frag ", 4096, ".data := frag_of_braceFree _ (by decide)
  have hW7 : Frag "mvtgeom".data := frag_of_braceFree _ (by decide)
  have hW9 : Frag ")\n            from (".data := frag_of_braceFree _ (by decide)
  have hW11 : Frag " where st_asmvtgeom(st_intersection(".data :=
    frag_of_braceFree _ (by decide)
  have c1 := frag_append hW1 hQt
  have c2 := frag_append c1 hlidF
  have c3 := frag_append c2 hQt
  have c4 := frag_append c3 hW5
  have c5 := frag_append c4 hQt
  have c6 := frag_append c5 hW7
  have c7 := frag_append c6 hQt
  have c8 := frag_append c7 hW9
  have c9 := frag_append c8 hq
  have c10 := frag_append c9 hW11
  have c11 := frag_append c10 (frag_of_braceFree gf hgf)
  rw [wrapLayer, extractPH_append _ _ c11, extractPH_append _ _ c10,
    extractPH_append _ _ c9, extractPH_append _ _ c8,
    extractPH_append _ _ c7, extractPH_append _ _ c6,
    extractPH_append _ _ c5, extractPH_append _ _ c4,
    extractPH_append _ _ c3, extractPH_append _ _ c2,
    extractPH_append _ _ c1, extractPH_append _ _ hW1]
  rw [extractPH_braceFree _ hlid, extractPH_braceFree _ hgf]
  rw [show extractPH "\n            select st_asmvt(tile, ".data = [] from by decide]
  rw [show extractPH [chQuote] = [] from by decide]
  rw [show extractPH ", 4096, ".data = [] from by decide]
  rw [show extractPH "mvtgeom".data = [] from by decide]
  rw [show extractPH ")\n            from (".data = [] from by decide]
  rw [show extractPH " where st_asmvtgeom(st_intersection(".data = [] from by decide]
  rw [show extractPH ", {bbox}), {bbox}) is not null) as tile\n        ".data =
    ["bbox".data, "bbox".data] from by decide]
  simp

/-- The string a successful `compileLayer` produces, inner select made
explicit. -/
theorem compileLayer_eq (l : Layer) (inner : List Char)
    (hm : layerqueryMatch l.table = some inner) :
    compileLayer l = Except.ok
      (wrapLayer l.id
        (tokenSubst (pyReplace inner l.geometry_field (clipExpr l.geometry_field)))
        l.geometry_field) := by
  rw [compileLayer, hm]

/-- A successfully compiled layer with brace-free descriptor fields has a
fragment query whose placeholders include `bbox`. -/
theorem compileLayer_frag (l : Layer) (q : List Char)
    (hok : compileLayer l = Except.ok q) (hid : BraceFree l.id)
    (hgf : BraceFree l.geometry_field) (htb : BraceFree l.table) :
    Frag q ∧ "bbox".data ∈ extractPH q := by
  rw [compileLayer] at hok
  cases hm : layerqueryMatch l.table with
  | none => rw [hm] at hok; exact absurd hok (by simp)
  | some inner =>
    rw [hm] at hok
    have hq : q = wrapLayer l.id
        (tokenSubst (pyReplace inner l.geometry_field (clipExpr l.geometry_field)))
        l.geometry_field := by
      have := hok
      injection this with h
      exact h.symm
    have hin : BraceFree inner :=
      braceFree_mono (layerqueryMatch_subset l.table inner hm) htb
    have hfragQ : Frag (tokenSubst
        (pyReplace inner l.geometry_field (clipExpr l.geometry_field))) :=
      frag_tokenSubst _ (frag_geomRewrite inner l.geometry_field hin hgf)
    subst hq
    constructor
    · exact frag_wrapLayer _ _ _ hid hgf hfragQ
    · rw [extractPH_wrapLayer _ _ _ hid hgf hfragQ]
      exact List.mem_append_right _ (by simp)

/-- Pointwise properties of the per-layer queries produced by
`compileLayers` on brace-free descriptors. -/
theorem compileLayers_frag (layers : List Layer) (qs : List (List Char))
    (hok : compileLayers layers = Except.ok qs)
    (hbf : ∀ l ∈ layers,
      BraceFree l.id ∧ BraceFree l.geometry_field ∧ BraceFree l.table) :
    ∀ q ∈ qs, Frag q ∧ "bbox".data ∈ extractPH q := by
  induction layers generalizing qs with
  | nil =>
    rw [compileLayers] at hok
    injection hok with h
    subst h
    intro q hq
    exact absurd hq (List.not_mem_nil q)
  | cons l ls ih =>
    rw [compileLayers] at hok
    cases hcl : compileLayer l with
    | error e => rw [hcl] at hok; exact absurd hok (by simp)
    | ok q₀ =>
      rw [hcl] at hok
      cases hcls : compileLayers ls with
      | error e => rw [hcls] at hok; exact absurd hok (by simp)
      | ok qs' =>
        rw [hcls] at hok
        injection hok with h
        subst h
        have hl := hbf l (List.mem_cons_self l ls)
        intro q hq
        rcases List.mem_cons.mp hq with h1 | h1
        · subst h1
          exact compileLayer_frag l q hcl hl.1 hl.2.1 hl.2.2
        · exact ih qs' hcls (fun x hx => hbf x (List.mem_cons_of_mem l hx)) q h1

/-! ### Greedy split characterization -/

/-- The tail matcher state `afterWs2` is stable under appending. -/
theorem afterWs2_append (u v : List Char) (h : afterWs2 u = true) :
    afterWs2 (u ++ v) = true := by
  induction u with
  | nil => exact absurd h (by simp [afterWs2])
  | cons c rest ih =>
    rw [afterWs2] at h
    rw [List.cons_append, afterWs2]
    by_cases hsp : pyIsSpace c
    · rw [if_pos hsp] at h ⊢
      exact ih h
    · rw [if_neg hsp] at h ⊢
      exact h

/-- The tail matcher state `afterS` is stable under appending. -/
theorem afterS_append (u v : List Char) (h : afterS u = true) :
    afterS (u ++ v) = true := by
  cases u with
  | nil => exact absurd h (by simp [afterS])
  | cons c rest =>
    rw [afterS] at h
    rw [List.cons_append, afterS]
    by_cases hsp : pyIsSpace c
    · rw [if_pos hsp] at h ⊢
      exact afterWs2_append rest v h
    · rw [if_neg hsp] at h
      exact absurd h (by simp)

/-- The tail matcher state `afterA` is stable under appending. -/
theorem afterA_append (u v : List Char) (h : afterA u = true) :
    afterA (u ++ v) = true := by
  cases u with
  | nil => exact absurd h (by simp [afterA])
  | cons c rest =>
    rw [afterA] at h
    rw [List.cons_append, afterA]
    by_cases hcs : c = 's' ∨ c = 'S'
    · rw [if_pos hcs] at h ⊢
      exact afterS_append rest v h
    · rw [if_neg hcs] at h
      exact absurd h (by simp)

/-- The tail matcher state `afterWs1` is stable under appending. -/
theorem afterWs1_append (u v : List Char) (h : afterWs1 u = true) :
    afterWs1 (u ++ v) = true := by
  induction u with
  | nil => exact absurd h (by simp [afterWs1])
  | cons c rest ih =>
    rw [afterWs1] at h
    rw [List.cons_append, afterWs1]
    by_cases hsp : pyIsSpace c
    · rw [if_pos hsp] at h ⊢
      exact ih h
    · rw [if_neg hsp] at h ⊢
      by_cases hca : c = 'a' ∨ c = 'A'
      · rw [if_pos hca] at h ⊢
        exact afterA_append rest v h
      · rw [if_neg hca] at h
        exact absurd h (by simp)

/-- An accepted alias tail is still accepted with extra text appended. -/
theorem tailAsAlias_append (u v : List Char) (h : tailAsAlias u = true) :
    tailAsAlias (u ++ v) = true := by
  cases u with
  | nil => exact absurd h (by simp [tailAsAlias])
  | cons c rest =>
    rw [tailAsAlias] at h
    rw [List.cons_append, tailAsAlias]
    by_cases hsp : pyIsSpace c
    · rw [if_pos hsp] at h ⊢
      exact afterWs1_append rest v h
    · rw [if_neg hsp] at h
      exact absurd h (by simp)

/-- A string without closing parentheses admits no greedy split. -/
theorem greedySplit_none (u : List Char) (h : ∀ c ∈ u, c ≠ chRParen) :
    greedySplit u = none := by
  induction u with
  | nil => rfl
  | cons c rest ih =>
    rw [greedySplit, ih fun d hd => h d (List.mem_cons_of_mem c hd)]
    have : ¬ (c = chRParen ∧ tailAsAlias rest) := fun hc =>
      h c (List.mem_cons_self c rest) hc.1
    rw [if_neg this]

/-- When everything after the distinguished closing parenthesis is free
of closing parentheses and matches the alias tail, the greedy group is
exactly the text before it. -/
theorem greedySplit_last (q u : List Char) (hAs : tailAsAlias u = true)
    (hNo : ∀ c ∈ u, c ≠ chRParen) :
    greedySplit (q ++ chRParen :: u) = some q := by
  induction q with
  | nil =>
    rw [List.nil_append, greedySplit, greedySplit_none u hNo,
      if_pos ⟨rfl, hAs⟩]
  | cons c q' ih =>
    rw [List.cons_append, greedySplit, ih]

/-! ### Row assembly -/

/-- The handler's truthiness filter and the non-null filter give the same
concatenation: an empty byte string is dropped by the code but
contributes nothing anyway. -/
theorem tileBytes_eq_nonNull (rows : List (Option Bytes)) :
    tileBytes rows =
      ((rows.filter (fun r => r.isSome)).filterMap id).flatten := by
  induction rows with
  | nil => rfl
  | cons r rest ih =>
    cases r with
    | none =>
      rw [tileBytes, List.filter_cons, if_neg (by simp [pyTruthy]),
        List.filter_cons, if_neg (by simp)]
      exact ih
    | some bs =>
      by_cases hbs : bs = []
      · subst hbs
        rw [tileBytes, List.filter_cons, if_neg (by simp [pyTruthy]),
          List.filter_cons, if_pos (by simp), List.filterMap_cons]
        simp only [id_eq, List.flatten_cons, List.nil_append]
        exact ih
      · rw [tileBytes, List.filter_cons, if_pos (by simp [pyTruthy, hbs]),
          List.filter_cons, if_pos (by simp), List.filterMap_cons,
          List.filterMap_cons]
        simp only [id_eq, List.flatten_cons]
        rw [show (List.filterMap id (List.filter pyTruthy rest)).flatten
          = tileBytes rest from rfl, ih]

/-! ### Compile error propagation -/

/-- A layer list containing a descriptor whose table text fails the
`LAYERQUERY` match compiles to the match error, never to a query list. -/
theorem compileLayers_error (layers : List Layer)
    (h : ∃ l ∈ layers, layerqueryMatch l.table = none) :
    compileLayers layers = Except.error PyError.attributeError := by
  induction layers with
  | nil =>
    rcases h with ⟨l, hl, _⟩
    exact absurd hl (List.not_mem_nil l)
  | cons l ls ih =>
    rw [compileLayers]
    rcases h with ⟨l', hl', hm'⟩
    rcases List.mem_cons.mp hl' with h1 | h1
    · subst h1
      rw [compileLayer, hm']
    · cases hcl : compileLayer l with
      | error e =>
        have he : e = PyError.attributeError := by
          rw [compileLayer] at hcl
          cases hm : layerqueryMatch l.table with
          | none =>
            rw [hm] at hcl
            injection hcl with h2
            exact h2.symm
          | some q =>
            rw [hm] at hcl
            exact absurd hcl (by simp)
        subst he
        rfl
      | ok q =>
        rw [ih ⟨l', h1, hm'⟩]

/-! ### Claim theorems -/

/-- C1: for every non-negative `x`, `y`, `z` and the configured custom
extent, `sql_bbox(x, y, z, reference)` with a non-null reference returns
the cell bounds `left = extent.left + x*cell_width`,
`right = extent.left + (x+1)*cell_width`, `top = extent.top -
y*cell_height`, `bottom = extent.top - (y+1)*cell_height`, where
`cell_width` and `cell_height` are the extent's width and height divided
by `2^z`, together with `min_feature_length = cell_width / 50`; with a
null reference it returns `min_feature_length = 0`. -/
theorem C1_sql_bbox_cell_bounds :
    ∀ (x y z : ℕ) (srid : List Char),
      ((sql_bbox x y z (some srid)).1.left =
          map_bbox.left + x * ((map_bbox.right - map_bbox.left) / 2 ^ z)
        ∧ (sql_bbox x y z (some srid)).1.right =
          map_bbox.left + (x + 1) * ((map_bbox.right - map_bbox.left) / 2 ^ z)
        ∧ (sql_bbox x y z (some srid)).1.top =
          map_bbox.top - y * ((map_bbox.top - map_bbox.bottom) / 2 ^ z)
        ∧ (sql_bbox x y z (some srid)).1.bottom =
          map_bbox.top - (y + 1) * ((map_bbox.top - map_bbox.bottom) / 2 ^ z)
        ∧ (sql_bbox x y z (some srid)).2.2 =
          ((map_bbox.right - map_bbox.left) / 2 ^ z) / 50)
      ∧ (sql_bbox x y z none).2.2 = 0 :=
  fun _ _ _ _ => ⟨⟨rfl, rfl, rfl, rfl, rfl⟩, rfl⟩

/-- C2: for every layer descriptor sequence containing at least one
descriptor whose subquery text does not match the
"( inner-select ) as alias" shape, `prepared_query` fails with the
compile-time exception (the spec's `DescriptorError`, concretely the
`AttributeError` raised by `.group` on a failed match); the malformed
text is never passed through into a compiled template. -/
theorem C2_malformed_descriptor_fails (layers : List Layer)
    (h : ∃ l ∈ layers, layerqueryMatch l.table = none) :
    prepared_query (TM2Input.layersObj layers) =
      Except.error PyError.attributeError := by
  rw [prepared_query, compileLayers_error layers h]

/-- Witness for C2 at a concrete malformed descriptor. -/
theorem C2_malformed_descriptor_fails_witness :
    prepared_query (TM2Input.layersObj
      [⟨"a".data, "geom".data, "no parens".data⟩]) =
      Except.error PyError.attributeError :=
  C2_malformed_descriptor_fails _
    ⟨⟨"a".data, "geom".data, "no parens".data⟩, by simp, by decide⟩

/-- C3 (code bug): in static mode the handler never serves from the
startup-compiled query.  Startup itself crashes: `type(filename) ==
'str'` is always `False`, so `prepared_query` subscripts the file-name
string and raises `TypeError`; and even with a query installed,
`auto_tm2_ts` stays `None` in static mode, so the very first request's
staleness check computes `time.monotonic() - None` and raises
`TypeError`. -/
theorem C3_static_mode_crashes :
    ∀ (filename q : List Char) (now : ℚ),
      prepared_query (TM2Input.file filename) = Except.error PyError.typeError
      ∧ mainStaticStartup filename = Except.error PyError.typeError
      ∧ refreshGuard (some q) none now = Except.error PyError.typeError :=
  fun _ _ _ => ⟨rfl, rfl, rfl⟩

/-- C4: in auto mode the catalog refreshes exactly when the compiled
query is null or its age exceeds 10 seconds; within the interval the
cached query instance is returned unchanged and the introspection result
is irrelevant (no second introspection); a refresh replaces the query
and stamps `auto_tm2_ts` with the current time. -/
theorem C4_catalog_refresh_policy :
    ∀ (st : CatalogState) (now : ℚ) (tbl : List (List Char))
      (q q' : List Char) (t : ℚ),
      (st.tm2query = some q → st.auto_tm2_ts = some t → now - t ≤ 10 →
        get_tile_tm2_step st now tbl = Except.ok (st, q))
      ∧ (st.tm2query = none →
          prepared_query (TM2Input.layersObj (introspectSources tbl)) =
            Except.ok q' →
          get_tile_tm2_step st now tbl =
            Except.ok (⟨some q', some now⟩, q'))
      ∧ (st.tm2query = some q → st.auto_tm2_ts = some t → now - t > 10 →
          prepared_query (TM2Input.layersObj (introspectSources tbl)) =
            Except.ok q' →
          get_tile_tm2_step st now tbl =
            Except.ok (⟨some q', some now⟩, q')) := by
  intro st now tbl q q' t
  obtain ⟨tq, ts⟩ := st
  refine ⟨?_, ?_, ?_⟩
  · intro h1 h2 h3
    have h1' : tq = some q := h1
    have h2' : ts = some t := h2
    subst h1'
    subst h2'
    rw [get_tile_tm2_step]
    simp only [if_neg (not_lt.mpr h3)]
  · intro h1 h2
    have h1' : tq = none := h1
    subst h1'
    rw [get_tile_tm2_step, refreshCatalog, h2]
  · intro h1 h2 h3 h4
    have h1' : tq = some q := h1
    have h2' : ts = some t := h2
    subst h1'
    subst h2'
    rw [get_tile_tm2_step]
    simp only [if_pos h3]
    rw [refreshCatalog, h4]

/-- Witness for C4: a fresh cache is served unchanged at age 5, an empty
cache refreshes and stamps the time, a stale cache (age 11) refreshes. -/
theorem C4_catalog_refresh_policy_witness :
    get_tile_tm2_step ⟨some "q".data, some 0⟩ 5 [] =
      Except.ok (⟨some "q".data, some 0⟩, "q".data)
    ∧ get_tile_tm2_step ⟨none, none⟩ 5 [] =
      Except.ok (⟨some [], some 5⟩, [])
    ∧ get_tile_tm2_step ⟨some "q".data, some 0⟩ 11 [] =
      Except.ok (⟨some [], some 11⟩, []) :=
  ⟨(C4_catalog_refresh_policy ⟨some "q".data, some 0⟩ 5 [] "q".data [] 0).1
      rfl rfl (by norm_num),
    (C4_catalog_refresh_policy ⟨none, none⟩ 5 [] "q".data [] 0).2.1 rfl rfl,
    (C4_catalog_refresh_policy ⟨some "q".data, some 0⟩ 11 [] "q".data [] 0).2.2
      rfl rfl (by norm_num) rfl⟩

/-- C5 counterexample: a layer name containing a tab — whitespace, but
not a space — is not rejected: the handler proceeds toward the store,
refuting "every layer name containing whitespace is rejected". -/
theorem C5_counterexample :
    containsPyWhitespace "bad\tlayer".data = true
    ∧ isReject (get_tile_postgis_core "bad\tlayer".data 0 0 0 none) = false := by
  exact ⟨by decide, by decide⟩

/-- C5 as amended: for every layer name containing a space character
(U+0020) — the character the code actually tests with `" " in layer` —
the request is rejected with status 404 and the descriptive plain-text
body, before any store access. -/
theorem C5_amended_space_rejected (layer : List Char) (x y z : ℕ)
    (g : Option (List Char)) (h : chSpace ∈ layer) :
    get_tile_postgis_core layer x y z g =
      DirectOutcome.reject 404 ("bad layer name: ".data ++ layer) := by
  rw [get_tile_postgis_core, if_pos h]

/-- Witness for the amended C5 at the spec's own example name. -/
theorem C5_amended_space_rejected_witness :
    chSpace ∈ "bad layer".data
    ∧ get_tile_postgis_core "bad layer".data 0 0 0 none =
      DirectOutcome.reject 404 ("bad layer name: ".data ++ "bad layer".data) :=
  ⟨by decide,
    C5_amended_space_rejected "bad layer".data 0 0 0 none (by decide)⟩

set_option maxRecDepth 8000 in
/-- C6 counterexample: a successfully compiled non-empty layer sequence
whose subquery carries no placeholder tokens yields a template exposing
only `bbox` — not the claimed exactly five placeholders. -/
theorem C6_counterexample :
    (prepared_query (TM2Input.layersObj
      [⟨"t".data, "geom".data, "(select geom from tbl) as q".data⟩])).map
        (fun t => extractPH t) =
      Except.ok ["bbox".data, "bbox".data, "bbox".data, "bbox".data]
    ∧ "scale_denominator".data ∉
        (["bbox".data, "bbox".data, "bbox".data, "bbox".data] :
          List (List Char)) := by
  exact ⟨rfl, by decide⟩

/-- C6 as amended: for every non-empty layer sequence with brace-free
descriptor fields that compiles successfully, the compiled template's
named placeholders all lie among the five — bbox, scale_denominator,
pixel_width, pixel_height, min_length — and `bbox` always occurs; the
template need not expose all five. -/
theorem C6_amended_placeholders (layers : List Layer) (tmpl : List Char)
    (hne : layers ≠ [])
    (hbf : ∀ l ∈ layers,
      BraceFree l.id ∧ BraceFree l.geometry_field ∧ BraceFree l.table)
    (hok : prepared_query (TM2Input.layersObj layers) = Except.ok tmpl) :
    "bbox".data ∈ extractPH tmpl ∧ ∀ m ∈ extractPH tmpl, m ∈ phNames := by
  rw [prepared_query] at hok
  cases hcl : compileLayers layers with
  | error e => rw [hcl] at hok; exact absurd hok (by simp)
  | ok qs =>
    rw [hcl] at hok
    injection hok with hh
    subst hh
    have hqs := compileLayers_frag layers qs hcl hbf
    have hsep : Frag " union all ".data := frag_of_braceFree _ (by decide)
    have hfr : Frag (List.intercalate " union all ".data qs) :=
      frag_intercalate _ hsep qs (fun q hq => (hqs q hq).1)
    constructor
    · cases layers with
      | nil => exact absurd rfl hne
      | cons l ls =>
        rw [compileLayers] at hcl
        cases hcll : compileLayer l with
        | error e => rw [hcll] at hcl; exact absurd hcl (by simp)
        | ok q₀ =>
          rw [hcll] at hcl
          cases hcls : compileLayers ls with
          | error e => rw [hcls] at hcl; exact absurd hcl (by simp)
          | ok qs' =>
            rw [hcls] at hcl
            injection hcl with h2
            subst h2
            have hq₀ := hqs q₀ (List.mem_cons_self q₀ qs')
            exact mem_extractPH_intercalate_head _ hsep q₀ hq₀.1 qs' _ hq₀.2
    · exact extractPH_mem_phNames hfr

set_option maxRecDepth 8000 in
/-- Witness for the amended C6 at a concrete single-layer compile. -/
theorem C6_amended_placeholders_witness :
    "bbox".data ∈ extractPH (wrapLayer "t".data
      (tokenSubst (pyReplace "select geom from tbl".data "geom".data
        (clipExpr "geom".data))) "geom".data)
    ∧ ∀ m ∈ extractPH (wrapLayer "t".data
        (tokenSubst (pyReplace "select geom from tbl".data "geom".data
          (clipExpr "geom".data))) "geom".data), m ∈ phNames :=
  C6_amended_placeholders
    [⟨"t".data, "geom".data, "(select geom from tbl) as q".data⟩]
    (wrapLayer "t".data
      (tokenSubst (pyReplace "select geom from tbl".data "geom".data
        (clipExpr "geom".data))) "geom".data)
    (by simp) (by decide) rfl

/-- C7: for every successfully compiled layer, the inner select is
rewritten by replacing every leftmost non-overlapping occurrence of the
declared geometry field with the clip-and-re-encode expression
`st_asmvtgeom(st_intersection(gf, {bbox}), {bbox}) as mvtgeom` — the
rewritten text is exactly the geometry-free segments interleaved with
that expression — and the result is wrapped in the outer per-layer
select that filters out rows whose clipped geometry is null. -/
theorem C7_geometry_rewrite (l : Layer) (inner : List Char)
    (hm : layerqueryMatch l.table = some inner)
    (hgf : l.geometry_field ≠ []) :
    compileLayer l = Except.ok (wrapLayer l.id
      (tokenSubst (List.intercalate (clipExpr l.geometry_field)
        (pySplit l.geometry_field inner)))
      l.geometry_field) := by
  rw [compileLayer_eq l inner hm,
    pyReplace_eq_intercalate_pySplit l.geometry_field
      (clipExpr l.geometry_field) inner hgf]

/-- Witness for C7 at a concrete layer. -/
theorem C7_geometry_rewrite_witness :
    compileLayer ⟨"t".data, "geom".data,
        "(select geom from tbl) as q".data⟩ =
      Except.ok (wrapLayer "t".data
        (tokenSubst (List.intercalate (clipExpr "geom".data)
          (pySplit "geom".data "select geom from tbl".data)))
        "geom".data) :=
  C7_geometry_rewrite ⟨"t".data, "geom".data,
      "(select geom from tbl) as q".data⟩
    "select geom from tbl".data (by decide) (by decide)

/-- C8: compiling an empty layer sequence succeeds with the empty
template; formatting it succeeds and is empty; executing the union of
zero per-layer selects yields zero rows, whose assembly is the empty
tile, a valid 200 response; and in dynamic mode zero discovered tables
populates the catalog (a non-null compiled query stamped with the
current time) rather than failing it. -/
theorem C8_empty_layer_set :
    ∀ (now : ℚ) (b sd pw ph ml : List Char),
      prepared_query (TM2Input.layersObj []) = Except.ok []
      ∧ formatFive [] b sd pw ph ml = some []
      ∧ execUnionAll [] = []
      ∧ rawTileResponse (execUnionAll []) =
          ⟨200, "application/x-protobuf".data, []⟩
      ∧ get_tile_tm2_step ⟨none, none⟩ now [] =
          Except.ok (⟨some [], some now⟩, []) :=
  fun _ _ _ _ _ _ => ⟨rfl, rfl, rfl, rfl, rfl⟩

/-- C9: for every executed tile request the response body equals the
concatenation, in row order, of the payloads of exactly the rows whose
payload is non-null (the code additionally drops empty byte strings,
which contribute nothing to a concatenation), with status 200 and the
protobuf content type even when empty. -/
theorem C9_response_assembly :
    ∀ rows : List (Option Bytes),
      (rawTileResponse rows).body =
        ((rows.filter (fun r => r.isSome)).filterMap id).flatten
      ∧ (rawTileResponse rows).status = 200
      ∧ (rawTileResponse rows).contentType = "application/x-protobuf".data :=
  fun rows => ⟨tileBytes_eq_nonNull rows, rfl, rfl⟩

/-- C10 counterexample: the shape check is start-anchored, but trailing
text is not always discarded: after the well-formed prefix
`(select 1) as a`, the trailing text ` (x) as b` is absorbed by the
greedy group, changing the extracted inner select. -/
theorem C10_counterexample :
    layerqueryMatch "(select 1) as a".data = some "select 1".data
    ∧ layerqueryMatch ("(select 1) as a".data ++ " (x) as b".data) =
        some "select 1) as a (x".data
    ∧ "select 1) as a (x".data ≠ "select 1".data := by
  exact ⟨by decide, by decide, by decide⟩

/-- C10 as amended: the check is anchored only at the start, so a
well-formed "( inner ) as alias" prefix followed by arbitrary trailing
text still matches; and when the alias part and the trailing text
contain no closing parenthesis, the extracted inner select is unchanged
— only then is the trailing text silently discarded. -/
theorem C10_amended_start_anchored (inner asPart trailing : List Char)
    (hAs : tailAsAlias asPart = true)
    (hNoParenAs : ∀ c ∈ asPart, c ≠ chRParen)
    (hNoParenTr : ∀ c ∈ trailing, c ≠ chRParen) :
    layerqueryMatch ((chLParen :: (inner ++ chRParen :: asPart)) ++ trailing) =
      some inner
    ∧ layerqueryMatch (chLParen :: (inner ++ chRParen :: asPart)) =
      some inner := by
  have hdw : ∀ u : List Char,
      List.dropWhile (fun c => pyIsSpace c) (chLParen :: u) = chLParen :: u := by
    intro u
    rw [List.dropWhile_cons, if_neg (by decide)]
  constructor
  · rw [List.cons_append, layerqueryMatch, hdw]
    show (if chLParen = chLParen then
        greedySplit ((inner ++ chRParen :: asPart) ++ trailing)
      else none) = some inner
    rw [if_pos rfl, List.append_assoc, List.cons_append]
    exact greedySplit_last inner (asPart ++ trailing)
      (tailAsAlias_append asPart trailing hAs)
      (fun c hc => by
        rcases List.mem_append.mp hc with h1 | h1
        · exact hNoParenAs c h1
        · exact hNoParenTr c h1)
  · rw [layerqueryMatch, hdw]
    show (if chLParen = chLParen then
        greedySplit (inner ++ chRParen :: asPart)
      else none) = some inner
    rw [if_pos rfl]
    exact greedySplit_last inner asPart hAs hNoParenAs

/-- Witness for the amended C10 at a concrete subquery with trailing
text. -/
theorem C10_amended_start_anchored_witness :
    layerqueryMatch ((chLParen :: ("select 1".data ++ chRParen :: " as a".data))
        ++ " trailing".data) = some "select 1".data
    ∧ layerqueryMatch (chLParen :: ("select 1".data ++ chRParen :: " as a".data)) =
      some "select 1".data :=
  C10_amended_start_anchored "select 1".data " as a".data " trailing".data
    (by decide) (by decide) (by decide)

end Postile
